import Mathlib

set_option maxHeartbeats 1000000

/-- Termination reasons of the engine (Executor::TerminateReason, Executor.cpp l.423). -/
inductive TerminateReason where
  | Abort
  | Assert
  | BadVectorAccess
  | Exec
  | External
  | Free
  | Model
  | Overflow
  | Ptr
  | ReadOnly
  | ReportError
  | User
  | Unhandled
deriving DecidableEq, Repr

/-- Shallow embedding of KLEE bit-vector expressions (the kinds the modelled code paths
build): constants, symbolic leaves, equality, unsigned comparison, subtraction,
concatenation, width casts, and an opaque object-state read (ObjectState::read is outside
src/, so its result is an uninterpreted read node). -/
inductive Expr where
  | const (w : Nat) (v : Nat)
  | sym (name : String) (w : Nat)
  | eq (a b : Expr)
  | ult (a b : Expr)
  | sub (a b : Expr)
  | concat (a b : Expr)
  | zext (e : Expr) (w : Nat)
  | sext (e : Expr) (w : Nat)
  | osRead (moId : Nat) (offset : Expr) (w : Nat)
deriving DecidableEq, Repr

/-- Bit width of an expression (Expr::getWidth). -/
def Expr.width : Expr → Nat
  | .const w _ => w
  | .sym _ w => w
  | .eq _ _ => 1
  | .ult _ _ => 1
  | .sub a _ => a.width
  | .concat a b => a.width + b.width
  | .zext _ w => w
  | .sext _ w => w
  | .osRead _ _ w => w

/-- isa<ConstantExpr>(e). -/
def Expr.isConst : Expr → Bool
  | .const _ _ => true
  | _ => false

/-- ConstantExpr::getZExtValue, normalised to the width; 0 on non-constants. -/
def Expr.constVal : Expr → Nat
  | .const w v => v % 2 ^ w
  | _ => 0

/-- Two's-complement sign extension of a value of width we to width w. -/
def sextVal (v we w : Nat) : Nat :=
  (if v % 2 ^ we < 2 ^ (we - 1) then v % 2 ^ we else v % 2 ^ we + (2 ^ w - 2 ^ we)) % 2 ^ w

/-- Semantics of expressions under an assignment of the symbolic leaves. -/
def evalE (rho : String → Nat) : Expr → Nat
  | .const w v => v % 2 ^ w
  | .sym n w => rho n % 2 ^ w
  | .eq a b => if evalE rho a = evalE rho b then 1 else 0
  | .ult a b => if evalE rho a < evalE rho b then 1 else 0
  | .sub a b => (evalE rho a + (2 ^ a.width - evalE rho b % 2 ^ a.width)) % 2 ^ a.width
  | .concat a b => evalE rho a * 2 ^ b.width + evalE rho b
  | .zext e w => evalE rho e % 2 ^ w
  | .sext e w => sextVal (evalE rho e) e.width w
  | .osRead _ _ _ => 0

theorem evalE_lt (rho : String → Nat) (e : Expr) : evalE rho e < 2 ^ e.width := by
  induction e with
  | const w v => exact Nat.mod_lt _ (Nat.two_pow_pos w)
  | sym n w => exact Nat.mod_lt _ (Nat.two_pow_pos w)
  | eq a b iha ihb =>
      simp only [evalE, Expr.width]
      split <;> omega
  | ult a b iha ihb =>
      simp only [evalE, Expr.width]
      split <;> omega
  | sub a b iha ihb => exact Nat.mod_lt _ (Nat.two_pow_pos _)
  | concat a b iha ihb =>
      simp only [evalE, Expr.width, pow_add]
      calc evalE rho a * 2 ^ b.width + evalE rho b
          < evalE rho a * 2 ^ b.width + 2 ^ b.width := by omega
        _ = (evalE rho a + 1) * 2 ^ b.width := by ring
        _ ≤ 2 ^ a.width * 2 ^ b.width := by
              exact Nat.mul_le_mul_right _ (by omega)
  | zext e w ih => exact Nat.mod_lt _ (Nat.two_pow_pos w)
  | sext e w ih => exact Nat.mod_lt _ (Nat.two_pow_pos w)
  | osRead i off w ih => exact Nat.two_pow_pos w

theorem evalE_of_isConst (rho : String → Nat) (e : Expr) (h : e.isConst = true) :
    evalE rho e = e.constVal := by
  cases e <;> simp_all [Expr.isConst, evalE, Expr.constVal]

/-- EqExpr::create: structural-identity and constant folding, constant canonicalised to
the left (Expr.cpp comparison creation). -/
def mkEq (a b : Expr) : Expr :=
  if a = b then .const 1 1
  else if a.isConst ∧ b.isConst then .const 1 (if a.constVal = b.constVal then 1 else 0)
  else if b.isConst then .eq b a
  else .eq a b

/-- Expr::createIsZero(e) = EqExpr::create(e, 0 of e's width). -/
def mkIsZero (e : Expr) : Expr := mkEq e (.const e.width 0)

/-- UltExpr::create with constant folding. -/
def mkUlt (a b : Expr) : Expr :=
  if a.isConst ∧ b.isConst then .const 1 (if a.constVal < b.constVal then 1 else 0)
  else .ult a b

/-- SubExpr::create with constant folding. -/
def mkSub (a b : Expr) : Expr :=
  if a.isConst ∧ b.isConst ∧ a.width = b.width then
    .const a.width ((a.constVal + (2 ^ a.width - b.constVal)) % 2 ^ a.width)
  else .sub a b

/-- ConcatExpr::create with constant folding. -/
def mkConcat (a b : Expr) : Expr :=
  if a.isConst ∧ b.isConst then
    .const (a.width + b.width) (a.constVal * 2 ^ b.width + b.constVal)
  else .concat a b

/-- ZExtExpr::create: identity on equal width, folding on constants. -/
def mkZExt (e : Expr) (w : Nat) : Expr :=
  if e.width = w then e
  else if e.isConst then .const w (e.constVal % 2 ^ w)
  else .zext e w

/-- SExtExpr::create: identity on equal width, folding on constants. -/
def mkSExt (e : Expr) (w : Nat) : Expr :=
  if e.width = w then e
  else if e.isConst then .const w (sextVal e.constVal e.width w)
  else .sext e w

/-- ConcatExpr::createN folds the kid array right-to-left. -/
def mkConcatN : List Expr → Expr
  | [] => .const 0 0
  | [e] => e
  | e :: rest => mkConcat e (mkConcatN rest)

theorem mkEq_eval (rho : String → Nat) (a b : Expr) :
    evalE rho (mkEq a b) = if evalE rho a = evalE rho b then 1 else 0 := by
  unfold mkEq
  split
  · next h => subst h; simp [evalE]
  · split
    · next h =>
        obtain ⟨ha, hb⟩ := h
        rw [show evalE rho a = a.constVal from evalE_of_isConst rho a ha,
            show evalE rho b = b.constVal from evalE_of_isConst rho b hb]
        simp only [evalE]
        split <;> simp
    · split
      · simp only [evalE]
        by_cases h : evalE rho a = evalE rho b
        · simp [h]
        · rw [if_neg h, if_neg (fun hh => h hh.symm)]
      · simp [evalE]

theorem mkIsZero_eval (rho : String → Nat) (e : Expr) :
    evalE rho (mkIsZero e) = if evalE rho e = 0 then 1 else 0 := by
  unfold mkIsZero
  rw [mkEq_eval]
  simp [evalE]

theorem mkUlt_eval (rho : String → Nat) (a b : Expr) :
    evalE rho (mkUlt a b) = evalE rho (.ult a b) := by
  unfold mkUlt
  split
  · next h =>
      obtain ⟨ha, hb⟩ := h
      simp only [evalE]
      rw [evalE_of_isConst rho a ha, evalE_of_isConst rho b hb]
      split <;> simp
  · rfl

theorem constVal_lt (e : Expr) : e.constVal < 2 ^ e.width := by
  cases e <;> simp [Expr.constVal, Expr.width] <;> exact Nat.mod_lt _ (Nat.two_pow_pos _)

theorem mkSub_eval (rho : String → Nat) (a b : Expr) :
    evalE rho (mkSub a b) = evalE rho (.sub a b) := by
  unfold mkSub
  split
  · next h =>
      obtain ⟨ha, hb, hw⟩ := h
      simp only [evalE]
      rw [evalE_of_isConst rho a ha, evalE_of_isConst rho b hb]
      have hblt : b.constVal < 2 ^ a.width := hw ▸ constVal_lt b
      rw [Nat.mod_eq_of_lt hblt, Nat.mod_mod_of_dvd _ dvd_rfl]
  · rfl

theorem mkConcat_eval (rho : String → Nat) (a b : Expr) :
    evalE rho (mkConcat a b) = evalE rho (.concat a b) := by
  unfold mkConcat
  split
  · next h =>
      obtain ⟨ha, hb⟩ := h
      simp only [evalE]
      rw [evalE_of_isConst rho a ha, evalE_of_isConst rho b hb]
      have h1 : a.constVal < 2 ^ a.width := constVal_lt a
      have h2 : b.constVal < 2 ^ b.width := constVal_lt b
      apply Nat.mod_eq_of_lt
      rw [pow_add]
      calc a.constVal * 2 ^ b.width + b.constVal
          < a.constVal * 2 ^ b.width + 2 ^ b.width := by omega
        _ = (a.constVal + 1) * 2 ^ b.width := by ring
        _ ≤ 2 ^ a.width * 2 ^ b.width := Nat.mul_le_mul_right _ (by omega)
  · rfl

theorem mkZExt_eval (rho : String → Nat) (e : Expr) (w : Nat) :
    evalE rho (mkZExt e w) = evalE rho (.zext e w) := by
  unfold mkZExt
  split
  · next h =>
      simp only [evalE]
      rw [← h, Nat.mod_eq_of_lt (evalE_lt rho e)]
  · split
    · next h =>
        simp only [evalE]
        rw [evalE_of_isConst rho e h]
        simp [Nat.mod_mod_of_dvd]
    · rfl

theorem sextVal_mod (v we w : Nat) : sextVal (v % 2 ^ we) we w = sextVal v we w := by
  unfold sextVal
  simp only [Nat.mod_mod_of_dvd _ dvd_rfl]

theorem sextVal_lt (v we w : Nat) : sextVal v we w < 2 ^ w :=
  Nat.mod_lt _ (Nat.two_pow_pos w)

theorem sextVal_mod_self (v we w : Nat) : sextVal v we w % 2 ^ w = sextVal v we w :=
  Nat.mod_eq_of_lt (sextVal_lt v we w)

theorem mkSExt_eval (rho : String → Nat) (e : Expr) (w : Nat) :
    evalE rho (mkSExt e w) = evalE rho (.sext e w) := by
  unfold mkSExt
  split
  · next h =>
      simp only [evalE]
      subst h
      unfold sextVal
      rw [Nat.mod_eq_of_lt (evalE_lt rho e)]
      have : 2 ^ e.width - 2 ^ e.width = 0 := by omega
      split <;> simp [this, Nat.mod_eq_of_lt (evalE_lt rho e)]
  · split
    · next h =>
        simp only [evalE]
        rw [evalE_of_isConst rho e h]
        unfold Expr.constVal
        cases e <;> simp_all [Expr.isConst, Expr.width, sextVal_mod, sextVal_mod_self]
    · rfl

/-- A leaf assignment satisfies every constraint of the store. -/
def satisfiesA (rho : String → Nat) (cs : List Expr) : Prop :=
  ∀ c ∈ cs, evalE rho c = 1

/-- The constraint store semantically entails a boolean expression. -/
def entailsE (cs : List Expr) (e : Expr) : Prop :=
  ∀ rho, satisfiesA rho cs → evalE rho e = 1

/-- The constraint store semantically refutes a boolean expression. -/
def refutesE (cs : List Expr) (e : Expr) : Prop :=
  ∀ rho, satisfiesA rho cs → evalE rho e = 0

/-- Replacement-map lookup (first match), as used by the constraint simplifier. -/
def lookupRepl : List (Expr × Expr) → Expr → Option Expr
  | [], _ => none
  | (k, r) :: rest, e => if k = e then some r else lookupRepl rest e

/-- Modelled from the spec: ConstraintManager::simplifyExpr's equality map
(lib/Expr/Constraints.cpp is not under src/).  Per the spec's equality-substitution,
each constraint of the form (= const rhs) maps rhs to the constant, and every other
constraint maps itself to true. -/
def equalitiesMap (cs : List Expr) : List (Expr × Expr) :=
  cs.map fun c =>
    match c with
    | .eq (.const w v) rhs => (rhs, Expr.const w v)
    | c => (c, Expr.const 1 1)

/-- Apply a replacement entry to one node; width-mismatched replacements are refused
(KLEE replacements are width-correct by the expression invariants). -/
def applyRepl (m : List (Expr × Expr)) (e : Expr) : Expr :=
  match lookupRepl m e with
  | some r => if r.width = e.width then r else e
  | none => e

/-- Modelled from the spec: the expression-replacement visitor of
ConstraintManager::simplifyExpr — children are rewritten first (rebuilding through the
folding constructors), then the rebuilt node is looked up in the replacement map.
Constants are never replaced. -/
def substExpr (m : List (Expr × Expr)) : Expr → Expr
  | .const w v => .const w v
  | .sym n w => applyRepl m (.sym n w)
  | .eq a b => applyRepl m (mkEq (substExpr m a) (substExpr m b))
  | .ult a b => applyRepl m (mkUlt (substExpr m a) (substExpr m b))
  | .sub a b => applyRepl m (mkSub (substExpr m a) (substExpr m b))
  | .concat a b => applyRepl m (mkConcat (substExpr m a) (substExpr m b))
  | .zext e w => applyRepl m (mkZExt (substExpr m e) w)
  | .sext e w => applyRepl m (mkSExt (substExpr m e) w)
  | .osRead i off w => applyRepl m (.osRead i (substExpr m off) w)

/-- Modelled from the spec: ConstraintManager::simplifyExpr — rewrite an expression
under the state's constraint set by equality substitution. -/
def simplifyExpr (cs : List Expr) (e : Expr) : Expr :=
  substExpr (equalitiesMap cs) e

theorem lookupRepl_mem {m : List (Expr × Expr)} {e r : Expr}
    (h : lookupRepl m e = some r) : (e, r) ∈ m := by
  induction m with
  | nil => simp [lookupRepl] at h
  | cons p rest ih =>
      obtain ⟨k, v⟩ := p
      by_cases hk : k = e
      · subst hk
        simp only [lookupRepl, if_pos rfl] at h
        cases h
        exact List.mem_cons_self _ _
      · simp only [lookupRepl, if_neg hk] at h
        exact List.mem_cons_of_mem _ (ih h)

theorem equalitiesMap_sound {cs : List Expr} {e r : Expr} {rho : String → Nat}
    (hs : satisfiesA rho cs) (hm : (e, r) ∈ equalitiesMap cs) :
    evalE rho r = evalE rho e := by
  unfold equalitiesMap at hm
  rw [List.mem_map] at hm
  obtain ⟨c, hc, hpair⟩ := hm
  have hcv : evalE rho c = 1 := hs c hc
  match c, hpair with
  | .eq (.const w v) rhs, hpair =>
      cases hpair
      simp only [evalE] at hcv
      split at hcv
      · next hev => simp only [evalE] at hev ⊢; omega
      · simp at hcv
  | .sym n w, hpair => cases hpair; simpa [evalE] using hcv.symm
  | .const w v, hpair => cases hpair; simpa [evalE] using hcv.symm
  | .eq (.sym n w') rhs, hpair => cases hpair; simpa [evalE] using hcv.symm
  | .eq (.eq x y) rhs, hpair => cases hpair; simpa [evalE] using hcv.symm
  | .eq (.ult x y) rhs, hpair => cases hpair; simpa [evalE] using hcv.symm
  | .eq (.sub x y) rhs, hpair => cases hpair; simpa [evalE] using hcv.symm
  | .eq (.concat x y) rhs, hpair => cases hpair; simpa [evalE] using hcv.symm
  | .eq (.zext x w') rhs, hpair => cases hpair; simpa [evalE] using hcv.symm
  | .eq (.sext x w') rhs, hpair => cases hpair; simpa [evalE] using hcv.symm
  | .eq (.osRead i off w') rhs, hpair => cases hpair; simpa [evalE] using hcv.symm
  | .ult x y, hpair => cases hpair; simpa [evalE] using hcv.symm
  | .sub x y, hpair => cases hpair; simpa [evalE] using hcv.symm
  | .concat x y, hpair => cases hpair; simpa [evalE] using hcv.symm
  | .zext x w', hpair => cases hpair; simpa [evalE] using hcv.symm
  | .sext x w', hpair => cases hpair; simpa [evalE] using hcv.symm
  | .osRead i off w', hpair => cases hpair; simpa [evalE] using hcv.symm

theorem applyRepl_sound {cs : List Expr} {rho : String → Nat}
    (hs : satisfiesA rho cs) (e : Expr) :
    evalE rho (applyRepl (equalitiesMap cs) e) = evalE rho e := by
  unfold applyRepl
  cases hl : lookupRepl (equalitiesMap cs) e with
  | none => rfl
  | some r =>
      show evalE rho (if r.width = e.width then r else e) = evalE rho e
      split
      · exact equalitiesMap_sound hs (lookupRepl_mem hl)
      · rfl

theorem applyRepl_width (m : List (Expr × Expr)) (e : Expr) :
    (applyRepl m e).width = e.width := by
  unfold applyRepl
  cases lookupRepl m e with
  | none => rfl
  | some r =>
      show (if r.width = e.width then r else e).width = e.width
      split
      · assumption
      · rfl

theorem mkEq_width (a b : Expr) : (mkEq a b).width = 1 := by
  unfold mkEq
  split
  · rfl
  · split
    · rfl
    · split <;> rfl

theorem mkUlt_width (a b : Expr) : (mkUlt a b).width = 1 := by
  unfold mkUlt
  split <;> rfl

theorem mkSub_width (a b : Expr) : (mkSub a b).width = a.width := by
  unfold mkSub
  split <;> rfl

theorem mkConcat_width (a b : Expr) : (mkConcat a b).width = a.width + b.width := by
  unfold mkConcat
  split <;> rfl

theorem mkZExt_width (e : Expr) (w : Nat) : (mkZExt e w).width = w := by
  unfold mkZExt
  split
  · omega
  · split <;> rfl

theorem mkSExt_width (e : Expr) (w : Nat) : (mkSExt e w).width = w := by
  unfold mkSExt
  split
  · omega
  · split <;> rfl

theorem substExpr_width (m : List (Expr × Expr)) (e : Expr) :
    (substExpr m e).width = e.width := by
  induction e with
  | const w v => rfl
  | sym n w => exact applyRepl_width m _
  | eq a b iha ihb => rw [substExpr, applyRepl_width, mkEq_width]; rfl
  | ult a b iha ihb => rw [substExpr, applyRepl_width, mkUlt_width]; rfl
  | sub a b iha ihb => rw [substExpr, applyRepl_width, mkSub_width, iha]; rfl
  | concat a b iha ihb => rw [substExpr, applyRepl_width, mkConcat_width, iha, ihb]; rfl
  | zext e w ih => rw [substExpr, applyRepl_width, mkZExt_width]; rfl
  | sext e w ih => rw [substExpr, applyRepl_width, mkSExt_width]; rfl
  | osRead i off w ih => rw [substExpr, applyRepl_width]; rfl

theorem substExpr_sound {cs : List Expr} {rho : String → Nat}
    (hs : satisfiesA rho cs) (e : Expr) :
    evalE rho (substExpr (equalitiesMap cs) e) = evalE rho e := by
  induction e with
  | const w v => rfl
  | sym n w => exact applyRepl_sound hs _
  | eq a b iha ihb =>
      rw [substExpr, applyRepl_sound hs, mkEq_eval, iha, ihb]; rfl
  | ult a b iha ihb =>
      rw [substExpr, applyRepl_sound hs, mkUlt_eval]
      simp only [evalE, iha, ihb]
  | sub a b iha ihb =>
      rw [substExpr, applyRepl_sound hs, mkSub_eval]
      simp only [evalE, iha, ihb, substExpr_width]
  | concat a b iha ihb =>
      rw [substExpr, applyRepl_sound hs, mkConcat_eval]
      simp only [evalE, iha, ihb, substExpr_width]
  | zext e w ih =>
      rw [substExpr, applyRepl_sound hs, mkZExt_eval]
      simp only [evalE, ih]
  | sext e w ih =>
      rw [substExpr, applyRepl_sound hs, mkSExt_eval]
      simp only [evalE, ih, substExpr_width]
  | osRead i off w ih =>
      rw [substExpr, applyRepl_sound hs]
      simp only [evalE]

theorem simplifyExpr_sound {cs : List Expr} {rho : String → Nat}
    (hs : satisfiesA rho cs) (e : Expr) :
    evalE rho (simplifyExpr cs e) = evalE rho e :=
  substExpr_sound hs e

theorem simplifyExpr_width (cs : List Expr) (e : Expr) :
    (simplifyExpr cs e).width = e.width :=
  substExpr_width _ e

/-- MemoryObject: the fields the modelled paths inspect. -/
structure MemoryObject where
  id : Nat
  base : Nat
  size : Nat
deriving DecidableEq, Repr

/-- ObjectState: only the read-only flag is inspected by the modelled paths; the byte
contents stay behind the opaque osRead node. -/
structure ObjectState where
  readOnly : Bool
deriving DecidableEq, Repr

/-- The per-state data the modelled code paths touch: the constraint store, the
address-space map, the fork depth and the per-state fork-disabled flag. -/
structure ExecutionState where
  constraints : List Expr
  addressSpace : List (MemoryObject × ObjectState)
  depth : Nat
  forkDisabled : Bool
deriving DecidableEq, Repr

instance : Inhabited ExecutionState := ⟨⟨[], [], 0, false⟩⟩

/-- Observable actions of one executeInstruction/executeMemoryOperation run.
Termination events carry the reason and message of terminateStateOnError
(terminateStateOnExecError reports with reason Exec); state-mutating actions and
register binds are recorded as events. -/
inductive Event where
  | termError (r : TerminateReason) (msg : String)
  | termEarly (msg : String)
  | termExit
  | bindLocalEv (v : Expr)
  | readMemEv (moId : Nat) (offset : Expr)
  | writeMemEv (moId : Nat) (offset : Expr) (value : Expr)
  | execCallEv (addr : Nat)
  | aegInjectEv
  | seedExitEv
  | heapReqEv
  | symConstraintEv (c : Expr)
deriving DecidableEq, Repr

def Event.isObjectAccess : Event → Bool
  | .readMemEv _ _ => true
  | .writeMemEv _ _ _ => true
  | _ => false

def containsTermEvent (evs : List Event) : Bool :=
  evs.any fun ev =>
    match ev with
    | .termError _ _ => true
    | .termEarly _ => true
    | .termExit => true
    | _ => false

def containsPtrTerm (evs : List Event) : Bool :=
  evs.any fun ev =>
    match ev with
    | .termError .Ptr _ => true
    | _ => false

def containsExecCall (evs : List Event) : Bool :=
  evs.any fun ev =>
    match ev with
    | .execCallEv _ => true
    | _ => false

/-- The ways the engine process dies in the modelled paths: a failed assert
(assert(success && "FIXME: Unhandled solver failure")) or llvm::report_fatal_error. -/
inductive EngineAbort where
  | assertFail
  | fatalError
deriving DecidableEq, Repr

/-- Executor::addConstraint (Executor.cpp l.1339): a constant-true condition is dropped,
a constant-false condition is a report_fatal_error, otherwise the condition is appended
to the store (ExecutionState/ConstraintManager::addConstraint is outside src/ and is
modelled from the spec's ConstraintStore as appending the conjunct; seeds empty,
implied-value concretization disabled). -/
def addConstraint (st : ExecutionState) (c : Expr) : Option ExecutionState :=
  if c.isConst then
    if c.width = 1 ∧ c.constVal = 1 then some st else none
  else some { st with constraints := st.constraints ++ [c] }

theorem addConstraint_sound {st st2 : ExecutionState} {c : Expr}
    (h : addConstraint st c = some st2) (rho : String → Nat)
    (hs : satisfiesA rho st2.constraints) :
    satisfiesA rho st.constraints ∧ evalE rho c = 1 := by
  unfold addConstraint at h
  split at h
  · next hc =>
      split at h
      · next hv =>
          cases h
          refine ⟨hs, ?_⟩
          rw [evalE_of_isConst rho c hc, hv.2]
      · cases h
  · next hc =>
      cases h
      constructor
      · intro x hx
        exact hs x (by simp [hx])
      · exact hs c (by simp)

theorem addConstraint_nonconst {st : ExecutionState} {c : Expr}
    (h : c.isConst = false) :
    addConstraint st c = some { st with constraints := st.constraints ++ [c] } := by
  unfold addConstraint
  rw [h]
  simp

theorem addConstraint_fields {st st2 : ExecutionState} {c : Expr}
    (h : addConstraint st c = some st2) :
    st2.addressSpace = st.addressSpace ∧ st2.depth = st.depth ∧
    st2.forkDisabled = st.forkDisabled := by
  unfold addConstraint at h
  split at h
  · split at h
    · cases h; exact ⟨rfl, rfl, rfl⟩
    · cases h
  · cases h; exact ⟨rfl, rfl, rfl⟩

/-- Validity results of the solver's evaluate() call. -/
inductive Validity where
  | vtrue
  | vfalse
  | unknown
deriving DecidableEq, Repr

/-- The engine-level inputs that decide one Executor::fork call: whether the
static-fork-percent block fires (and its getValue outcome), the solver's evaluate
outcome (none = query failure/timeout), the replay-path bit at the current position,
the memory/fork caps, the deterministic RNG draw and MaxDepth.  The seed map is
modelled empty (no -seed options). -/
structure ForkCfg where
  staticPct : Option (Option Nat)
  evalResult : Option Validity
  replayBit : Option Bool
  maxMemoryInhibit : Bool
  atMemoryLimit : Bool
  inhibitForking : Bool
  maxForksReached : Bool
  rngBool : Bool
  maxDepth : Nat
deriving DecidableEq, Repr

instance : Inhabited ForkCfg := ⟨⟨none, none, none, false, false, false, false, false, 0⟩⟩

/-- The fork-inhibition disjunction of Executor.cpp l.1183. -/
def forkInhibited (cfg : ForkCfg) (cur : ExecutionState) : Bool :=
  (cfg.maxMemoryInhibit && cfg.atMemoryLimit) || cur.forkDisabled ||
    cfg.inhibitForking || cfg.maxForksReached

/-- Executor.cpp l.1121-1146: when the static fork/solve percentage limits fire on a
non-constant condition, the condition is concretized via getValue and the equality is
added as a constraint. -/
def forkConcretize (cfg : ForkCfg) (cur : ExecutionState) (cond : Expr) :
    Except EngineAbort (ExecutionState × Expr) :=
  if cond.isConst then .ok (cur, cond)
  else
    match cfg.staticPct with
    | none => .ok (cur, cond)
    | some none => .error .assertFail
    | some (some n) =>
        match addConstraint cur (mkEq (.const cond.width n) cond) with
        | none => .error .fatalError
        | some cur2 => .ok (cur2, .const cond.width n)

/-- Executor.cpp l.1160-1207: replay-path handling and the skip-fork branch that picks
one side by the RNG when forking is inhibited on an Unknown validity. -/
def forkDecide (cfg : ForkCfg) (cur : ExecutionState) (cond : Expr) (isInternal : Bool)
    (res : Validity) : Except EngineAbort (ExecutionState × Validity) :=
  match cfg.replayBit, isInternal with
  | some b, false =>
      (match res with
       | .vtrue => if b then .ok (cur, .vtrue) else .error .assertFail
       | .vfalse => if b then .error .assertFail else .ok (cur, .vfalse)
       | .unknown =>
           if b then
             match addConstraint cur cond with
             | none => .error .fatalError
             | some c2 => .ok (c2, .vtrue)
           else
             match addConstraint cur (mkIsZero cond) with
             | none => .error .fatalError
             | some c2 => .ok (c2, .vfalse))
  | _, _ =>
      if res = .unknown ∧ forkInhibited cfg cur then
        if cfg.rngBool then
          match addConstraint cur cond with
          | none => .error .fatalError
          | some c2 => .ok (c2, .vtrue)
        else
          match addConstraint cur (mkIsZero cond) with
          | none => .error .fatalError
          | some c2 => .ok (c2, .vfalse)
      else .ok (cur, res)

/-- Executor.cpp l.1247-1336: resolved validities return a single branch; Unknown
clones the state (ExecutionState::branch bumps the depth: modelled from the spec's
state model, ExecutionState.cpp is outside src/), adds the condition and its negation,
and applies the MaxDepth cutoff. -/
def forkFinal (cfg : ForkCfg) (cur : ExecutionState) (cond : Expr) :
    Validity → Except EngineAbort ((Option ExecutionState × Option ExecutionState) × List Event)
  | .vtrue => .ok ((some cur, none), [])
  | .vfalse => .ok ((none, some cur), [])
  | .unknown =>
      match addConstraint { cur with depth := cur.depth + 1 } cond with
      | none => .error .fatalError
      | some tS =>
          match addConstraint { cur with depth := cur.depth + 1 } (mkIsZero cond) with
          | none => .error .fatalError
          | some fS =>
              if cfg.maxDepth ≠ 0 ∧ cfg.maxDepth ≤ tS.depth then
                .ok ((none, none),
                  [Event.termEarly "max-depth exceeded.", Event.termEarly "max-depth exceeded."])
              else .ok ((some tS, some fS), [])

/-- Executor::fork (Executor.cpp l.1114-1337), seed map empty: concretize under the
static limits, evaluate the condition (a query failure terminates the state early and
returns a null pair), decide replay/inhibition, then produce the branch pair. -/
def fork (cfg : ForkCfg) (current : ExecutionState) (condition : Expr)
    (isInternal : Bool) :
    Except EngineAbort ((Option ExecutionState × Option ExecutionState) × List Event) :=
  match forkConcretize cfg current condition with
  | .error a => .error a
  | .ok (cur1, cond1) =>
      match cfg.evalResult with
      | none => .ok ((none, none), [Event.termEarly "Query timed out (fork)."])
      | some res0 =>
          match forkDecide cfg cur1 cond1 isInternal res0 with
          | .error a => .error a
          | .ok (cur2, res) => forkFinal cfg cur2 cond1 res

theorem forkConcretize_sound {cfg : ForkCfg} {cur cur1 : ExecutionState}
    {c cond1 : Expr}
    (h : forkConcretize cfg cur c = .ok (cur1, cond1)) (rho : String → Nat)
    (hs : satisfiesA rho cur1.constraints) :
    satisfiesA rho cur.constraints ∧ evalE rho cond1 = evalE rho c := by
  unfold forkConcretize at h
  split at h
  · cases h; exact ⟨hs, rfl⟩
  · split at h
    · cases h; exact ⟨hs, rfl⟩
    · cases h
    · next n _ =>
        cases hac : addConstraint cur (mkEq (.const c.width n) c) with
        | none => rw [hac] at h; cases h
        | some cur2 =>
            rw [hac] at h
            cases h
            have hA := addConstraint_sound hac rho hs
            refine ⟨hA.1, ?_⟩
            have heq := hA.2
            rw [mkEq_eval] at heq
            split at heq
            · assumption
            · simp at heq

theorem forkDecide_unknown {cfg : ForkCfg} {cur s : ExecutionState} {cond : Expr}
    {isInternal : Bool} {res0 : Validity}
    (h : forkDecide cfg cur cond isInternal res0 = .ok (s, .unknown)) : s = cur := by
  unfold forkDecide at h
  split at h
  · split at h
    · split at h <;> simp_all
    · split at h <;> simp_all
    · split at h
      · cases hac : addConstraint cur cond with
        | none => rw [hac] at h; cases h
        | some c2 => rw [hac] at h; simp at h
      · cases hac : addConstraint cur (mkIsZero cond) with
        | none => rw [hac] at h; cases h
        | some c2 => rw [hac] at h; simp at h
  · split at h
    · split at h
      · cases hac : addConstraint cur cond with
        | none => rw [hac] at h; cases h
        | some c2 => rw [hac] at h; simp at h
      · cases hac : addConstraint cur (mkIsZero cond) with
        | none => rw [hac] at h; cases h
        | some c2 => rw [hac] at h; simp at h
    · simp only [Except.ok.injEq, Prod.mk.injEq] at h
      exact h.1.symm

theorem forkFinal_ok_both {cfg : ForkCfg} {cur2 t f : ExecutionState} {cond1 : Expr}
    {res : Validity} {tr : List Event}
    (h : forkFinal cfg cur2 cond1 res = .ok ((some t, some f), tr)) :
    res = .unknown ∧
    addConstraint { cur2 with depth := cur2.depth + 1 } cond1 = some t ∧
    addConstraint { cur2 with depth := cur2.depth + 1 } (mkIsZero cond1) = some f := by
  cases res with
  | vtrue => simp [forkFinal] at h
  | vfalse => simp [forkFinal] at h
  | unknown =>
      refine ⟨rfl, ?_⟩
      rw [forkFinal] at h
      split at h
      · simp at h
      · next tS h1 =>
          split at h
          · simp at h
          · next fS h2 =>
              split at h
              · simp at h
              · have hp := Except.ok.inj h
                have ht : tS = t := by
                  have := congrArg (fun x => x.1.1) hp
                  simpa using this
                have hf2 : fS = f := by
                  have := congrArg (fun x => x.1.2) hp
                  simpa using this
                rw [ht] at h1
                rw [hf2] at h2
                exact ⟨h1, h2⟩

/-- C4: on an actual binary fork (solver validity Unknown), the returned true branch's
constraint store entails the fork condition and the false branch's store entails its
negation. -/
theorem fork_branch_constraint_polarity
    (cfg : ForkCfg) (cur : ExecutionState) (c : Expr) (isInternal : Bool)
    (t f : ExecutionState) (tr : List Event)
    (hunk : cfg.evalResult = some Validity.unknown)
    (hres : fork cfg cur c isInternal = .ok ((some t, some f), tr)) :
    entailsE t.constraints c ∧ refutesE f.constraints c := by
  unfold fork at hres
  split at hres
  · simp at hres
  · next cur1 cond1 hcc =>
      split at hres
      · simp at hres
      · next res0 hev =>
          rw [hunk] at hev
          injection hev with hev
          subst hev
          split at hres
          · simp at hres
          · next cur2 res hfd =>
              obtain ⟨hresu, h1, h2⟩ := forkFinal_ok_both hres
              subst hresu
              have hcur2 : cur2 = cur1 := forkDecide_unknown hfd
              subst hcur2
              refine ⟨?_, ?_⟩
              · intro rho hs
                have hA := addConstraint_sound h1 rho hs
                have hC := forkConcretize_sound hcc rho hA.1
                rw [← hC.2]
                exact hA.2
              · intro rho hs
                have hB := addConstraint_sound h2 rho hs
                have hC := forkConcretize_sound hcc rho hB.1
                have hz := hB.2
                rw [mkIsZero_eval] at hz
                rw [← hC.2]
                split at hz
                · assumption
                · simp at hz

/-- Witness for C4: a concrete fork on a fresh boolean symbol. -/
theorem fork_branch_constraint_polarity_witness :
    entailsE [Expr.sym "b" 1] (Expr.sym "b" 1) ∧
    refutesE [Expr.eq (.const 1 0) (.sym "b" 1)] (Expr.sym "b" 1) :=
  fork_branch_constraint_polarity
    ⟨none, some .unknown, none, false, false, false, false, true, 0⟩
    ⟨[], [], 0, false⟩ (Expr.sym "b" 1) true
    ⟨[Expr.sym "b" 1], [], 1, false⟩
    ⟨[Expr.eq (.const 1 0) (.sym "b" 1)], [], 1, false⟩
    [] rfl rfl

theorem mkIsZero_nonconst {c : Expr} (h : c.isConst = false) :
    (mkIsZero c).isConst = false ∧ mkIsZero c = .eq (.const c.width 0) c := by
  unfold mkIsZero mkEq
  have hne : ¬(c = Expr.const c.width 0) := by
    intro he
    rw [he] at h
    simp [Expr.isConst] at h
  rw [if_neg hne, if_neg (by simp [h]), if_pos (by simp [Expr.isConst])]
  exact ⟨rfl, rfl⟩

/-- Helper: the state produced by appending one constraint. -/
def withConstraint (st : ExecutionState) (c : Expr) : ExecutionState :=
  { st with constraints := st.constraints ++ [c] }

theorem fork_inhibited_single
    (cfg : ForkCfg) (cur : ExecutionState) (c : Expr) (isInternal : Bool)
    (hnc : c.isConst = false) (hsp : cfg.staticPct = none)
    (hrp : cfg.replayBit = none) (hunk : cfg.evalResult = some Validity.unknown)
    (hinh : forkInhibited cfg cur = true) :
    fork cfg cur c isInternal =
      if cfg.rngBool then .ok ((some (withConstraint cur c), none), [])
      else .ok ((none, some (withConstraint cur (mkIsZero c))), []) := by
  have hz := (mkIsZero_nonconst hnc).1
  unfold fork forkConcretize forkDecide
  rw [hsp, hrp, hunk]
  cases hr : cfg.rngBool <;>
    simp [hnc, hz, hinh, hr, addConstraint_nonconst, forkFinal, withConstraint]

/-- The non-inhibited arm of Executor::branch (l.1048-1059): result[0] is the current
state; each further entry clones a previously placed state picked by the RNG
(ExecutionState::branch bumps the clone source's depth, modelled from the spec). -/
def buildFree : List Nat → Nat → List ExecutionState → List ExecutionState
  | _, 0, acc => acc
  | rngs, k + 1, acc =>
      let idx := rngs.headI % acc.length
      let es2 : ExecutionState :=
        { acc.getD idx default with depth := (acc.getD idx default).depth + 1 }
      buildFree rngs.tail k (acc.set idx es2 ++ [es2])

/-- The inhibited arm of Executor::branch (l.1039-1047): the entry at index rng % N is
the current state, every other entry is null. -/
def buildInhibited (st : ExecutionState) (next : Nat) : Nat → Nat → List (Option ExecutionState)
  | _, 0 => []
  | i, k + 1 => (if i = next then some st else none) :: buildInhibited st next (i + 1) k

/-- The closing loop of Executor::branch (l.1109-1111): each surviving entry gets its
condition added (a constant-false condition is a fatal error, hence Option). -/
def addConds : List (Option ExecutionState) → List Expr → Option (List (Option ExecutionState))
  | some s :: rest, c :: cs =>
      match addConstraint s c with
      | none => none
      | some s2 =>
          match addConds rest cs with
          | none => none
          | some r => some (some s2 :: r)
  | none :: rest, _ :: cs =>
      match addConds rest cs with
      | none => none
      | some r => some (none :: r)
  | _, _ => some []

/-- Executor::branch (Executor.cpp l.1032-1112) with an empty seed map. -/
def branch (maxForksReached : Bool) (rng0 : Nat) (rngs : List Nat)
    (st : ExecutionState) (conds : List Expr) : Option (List (Option ExecutionState)) :=
  let base : List (Option ExecutionState) :=
    if maxForksReached then buildInhibited st (rng0 % conds.length) 0 conds.length
    else (buildFree rngs (conds.length - 1) [st]).map some
  addConds base conds

theorem buildInhibited_irrel (st st' : ExecutionState) (next : Nat) :
    ∀ (k i : Nat), (next < i ∨ i + k ≤ next) →
      buildInhibited st next i k = buildInhibited st' next i k := by
  intro k
  induction k with
  | zero => intro i _; rfl
  | succ k ih =>
      intro i hrange
      unfold buildInhibited
      have hne : i ≠ next := by omega
      simp only [if_neg hne]
      rw [ih (i + 1) (by omega)]

theorem addConds_buildInhibited_miss (st : ExecutionState) (next : Nat) :
    ∀ (cs : List Expr) (i : Nat), (next < i ∨ i + cs.length ≤ next) →
      addConds (buildInhibited st next i cs.length) cs =
        some (buildInhibited st next i cs.length) := by
  intro cs
  induction cs with
  | nil => intro i _; rfl
  | cons c cs ih =>
      intro i hrange
      have hne : i ≠ next := by
        simp only [List.length_cons] at hrange
        omega
      simp only [List.length_cons, buildInhibited, if_neg hne, addConds]
      rw [ih (i + 1) (by simp only [List.length_cons] at hrange; omega)]

theorem addConds_buildInhibited_hit (st st2 : ExecutionState) (next : Nat) :
    ∀ (cs : List Expr) (i : Nat), i ≤ next → next < i + cs.length →
      addConstraint st (cs.getD (next - i) (.const 1 1)) = some st2 →
      addConds (buildInhibited st next i cs.length) cs =
        some (buildInhibited st2 next i cs.length) := by
  intro cs
  induction cs with
  | nil => intro i h1 h2 _; simp at h2; omega
  | cons c cs ih =>
      intro i h1 h2 hadd
      by_cases hi : i = next
      · subst hi
        have h0 : i - i = 0 := by omega
        rw [h0] at hadd
        simp only [List.getD_cons_zero] at hadd
        simp only [List.length_cons, buildInhibited, if_pos rfl, addConds, hadd]
        rw [addConds_buildInhibited_miss st i cs (i + 1) (by omega)]
        rw [buildInhibited_irrel st st2 i cs.length (i + 1) (by omega)]
        simp
      · have hlt : i < next := by omega
        have hg : (c :: cs).getD (next - i) (.const 1 1) = cs.getD (next - (i + 1)) (.const 1 1) := by
          have hsucc : next - i = (next - (i + 1)) + 1 := by omega
          rw [hsucc]
          simp [List.getD_cons_succ]
        rw [hg] at hadd
        simp only [List.length_cons, buildInhibited, if_neg hi, addConds]
        rw [ih (i + 1) (by omega) (by simp only [List.length_cons] at h2; omega) hadd]

theorem buildInhibited_isSome (st : ExecutionState) (next : Nat) :
    ∀ (k i j : Nat), j < k →
      (((buildInhibited st next i k).getD j none).isSome = true ↔ i + j = next) := by
  intro k
  induction k with
  | zero => intro i j hj; omega
  | succ k ih =>
      intro i j hj
      cases j with
      | zero =>
          simp only [buildInhibited, List.getD_cons_zero]
          by_cases hi : i = next
          · simp [hi]
          · simp [if_neg hi, hi]
      | succ j =>
          simp only [buildInhibited, List.getD_cons_succ]
          rw [ih (i + 1) j (by omega)]
          omega

/-- C5: with the fork budget exhausted (or the memory cap inhibiting) on an Unknown
validity, fork returns exactly one non-null branch chosen by the deterministic RNG with
that branch's condition added to the current state; likewise Executor::branch keeps
exactly one non-null entry, at index rng % N, with its condition added. -/
theorem fork_budget_exhausted_single_branch
    (cfg : ForkCfg) (cur : ExecutionState) (c : Expr) (isInternal : Bool)
    (rng0 : Nat) (rngs : List Nat) (st st2 : ExecutionState) (conds : List Expr)
    (hnc : c.isConst = false) (hsp : cfg.staticPct = none)
    (hrp : cfg.replayBit = none) (hunk : cfg.evalResult = some Validity.unknown)
    (hinh : forkInhibited cfg cur = true)
    (hconds : conds ≠ [])
    (hadd : addConstraint st (conds.getD (rng0 % conds.length) (.const 1 1)) = some st2) :
    (fork cfg cur c isInternal =
       if cfg.rngBool then .ok ((some (withConstraint cur c), none), [])
       else .ok ((none, some (withConstraint cur (mkIsZero c))), [])) ∧
    branch true rng0 rngs st conds =
      some (buildInhibited st2 (rng0 % conds.length) 0 conds.length) ∧
    (∀ j, j < conds.length →
      (((buildInhibited st2 (rng0 % conds.length) 0 conds.length).getD j none).isSome = true
        ↔ j = rng0 % conds.length)) := by
  refine ⟨fork_inhibited_single cfg cur c isInternal hnc hsp hrp hunk hinh, ?_, ?_⟩
  · show addConds (buildInhibited st (rng0 % conds.length) 0 conds.length) conds =
      some (buildInhibited st2 (rng0 % conds.length) 0 conds.length)
    have hn : 0 < conds.length := List.length_pos.mpr hconds
    exact addConds_buildInhibited_hit st st2 _ conds 0 (Nat.zero_le _)
      (by have := Nat.mod_lt rng0 hn; omega) (by simpa using hadd)
  · intro j hj
    rw [buildInhibited_isSome st2 _ conds.length 0 j hj]
    omega

/-- Witness for C5: budget-exhausted binary fork and a two-way branch call. -/
theorem fork_budget_exhausted_single_branch_witness :
    fork ⟨none, some .unknown, none, false, false, false, true, true, 0⟩
        ⟨[], [], 0, false⟩ (.sym "c5" 1) true =
      .ok ((some ⟨[.sym "c5" 1], [], 0, false⟩, none), []) ∧
    branch true 3 [] ⟨[], [], 0, false⟩ [.sym "p" 1, .sym "q" 1] =
      some [none, some ⟨[.sym "q" 1], [], 0, false⟩] :=
  ⟨(fork_budget_exhausted_single_branch
      ⟨none, some .unknown, none, false, false, false, true, true, 0⟩
      ⟨[], [], 0, false⟩ (.sym "c5" 1) true 3 []
      ⟨[], [], 0, false⟩ ⟨[.sym "q" 1], [], 0, false⟩ [.sym "p" 1, .sym "q" 1]
      rfl rfl rfl rfl rfl (by simp) rfl).1,
   (fork_budget_exhausted_single_branch
      ⟨none, some .unknown, none, false, false, false, true, true, 0⟩
      ⟨[], [], 0, false⟩ (.sym "c5" 1) true 3 []
      ⟨[], [], 0, false⟩ ⟨[.sym "q" 1], [], 0, false⟩ [.sym "p" 1, .sym "q" 1]
      rfl rfl rfl rfl rfl (by simp) rfl).2.1⟩

/-- Executor::toConstant (Executor.cpp l.1425-1452): simplify the expression under the
constraints; if the result is a constant return it unchanged, otherwise obtain a value
from the solver (getVal, a failed query is the assert "FIXME: Unhandled solver
failure"), add the equality as a constraint, and return the value. -/
def toConstant (st : ExecutionState) (e : Expr) (getVal : Option Nat) :
    Except EngineAbort (Expr × ExecutionState) :=
  if (simplifyExpr st.constraints e).isConst then .ok (simplifyExpr st.constraints e, st)
  else
    match getVal with
    | none => .error .assertFail
    | some n =>
        match addConstraint st (mkEq (simplifyExpr st.constraints e)
            (.const (simplifyExpr st.constraints e).width n)) with
        | none => .error .fatalError
        | some st2 => .ok (.const (simplifyExpr st.constraints e).width n, st2)

theorem satisfiesA_append {rho : String → Nat} {cs : List Expr} {c : Expr}
    (hs : satisfiesA rho (cs ++ [c])) : satisfiesA rho cs ∧ evalE rho c = 1 :=
  ⟨fun x hx => hs x (by simp [hx]), hs c (by simp)⟩

/-- C8 (amended): toConstant returns a constant v whose equality with the argument is
entailed by the post-call constraint store; the equality is added as a constraint
exactly when the simplified expression is not a constant. -/
theorem toConstant_entails_eq
    (st st2 : ExecutionState) (e v : Expr) (getVal : Option Nat)
    (h : toConstant st e getVal = .ok (v, st2)) :
    v.isConst = true ∧ entailsE st2.constraints (mkEq e v) ∧
    ((simplifyExpr st.constraints e).isConst = false →
      st2.constraints = st.constraints ++ [mkEq (simplifyExpr st.constraints e) v]) := by
  unfold toConstant at h
  split at h
  · next hc =>
      have hinj := Except.ok.inj h
      obtain ⟨hv, hst⟩ := Prod.mk.inj hinj
      subst hv
      subst hst
      refine ⟨hc, ?_, ?_⟩
      · intro rho hs
        have hse := simplifyExpr_sound hs e
        rw [mkEq_eval, hse]
        simp
      · intro hfalse
        rw [hfalse] at hc
        cases hc
  · next hc =>
      have hc' : (simplifyExpr st.constraints e).isConst = false := by
        simpa using hc
      cases getVal with
      | none => simp at h
      | some n =>
          dsimp only [] at h
          split at h
          · simp at h
          · next stx hac =>
              have hinj := Except.ok.inj h
              obtain ⟨hv, hst⟩ := Prod.mk.inj hinj
              subst hv
              subst hst
              refine ⟨rfl, ?_, ?_⟩
              · intro rho hs
                have hA := addConstraint_sound hac rho hs
                have hsimp := simplifyExpr_sound hA.1 e
                have heq := hA.2
                rw [mkEq_eval] at heq ⊢
                split at heq
                · next hev =>
                    rw [hsimp] at hev
                    simp [hev]
                · simp at heq
              · intro _
                have hme : (mkEq (simplifyExpr st.constraints e)
                    (.const (simplifyExpr st.constraints e).width n)).isConst = false := by
                  unfold mkEq
                  rw [if_neg, if_neg, if_pos]
                  · simp [Expr.isConst]
                  · simp [Expr.isConst]
                  · simp [hc']
                  · intro he
                    rw [he] at hc'
                    simp [Expr.isConst] at hc'
                rw [addConstraint_nonconst hme] at hac
                have hx := Option.some.inj hac
                rw [← hx]

/-- Witness for C8 (amended): concretizing a fresh symbolic byte to 3. -/
theorem toConstant_entails_eq_witness :
    (Expr.const 8 3).isConst = true ∧
    entailsE [Expr.eq (.const 8 3) (.sym "y" 8)] (mkEq (.sym "y" 8) (.const 8 3)) ∧
    ((simplifyExpr ([] : List Expr) (.sym "y" 8)).isConst = false →
      [Expr.eq (.const 8 3) (.sym "y" 8)] =
        [] ++ [mkEq (simplifyExpr ([] : List Expr) (.sym "y" 8)) (.const 8 3)]) :=
  toConstant_entails_eq ⟨[], [], 0, false⟩
    ⟨[.eq (.const 8 3) (.sym "y" 8)], [], 0, false⟩
    (.sym "y" 8) (.const 8 3) (some 3) rfl

/-- Counterexample for C8 as frozen: with the store already containing x = 5, toConstant
on the non-constant expression x returns 5 with the store unchanged — no equality
constraint is added although the argument was not already constant. -/
theorem toConstant_no_add_cex :
    toConstant ⟨[.eq (.const 8 5) (.sym "x" 8)], [], 0, false⟩ (.sym "x" 8) none =
      .ok (.const 8 5, ⟨[.eq (.const 8 5) (.sym "x" 8)], [], 0, false⟩) ∧
    (Expr.sym "x" 8).isConst = false :=
  ⟨rfl, rfl⟩

/-- Counterexample for C9 as frozen: a getValue failure inside toConstant hits
assert(success && "FIXME: Unhandled solver failure") — the engine aborts instead of
returning a structured result. -/
theorem toConstant_solver_failure_abort_cex :
    toConstant ⟨[], [], 0, false⟩ (.sym "x" 8) none = .error EngineAbort.assertFail :=
  rfl

/-- C9 (amended): a solver failure on fork's evaluate query is handled structurally (the
issuing state is terminated early, a null pair is returned, no abort), but a getValue
failure inside toConstant aborts the engine through the failed assert. -/
theorem solver_failure_handling
    (cfg : ForkCfg) (cur : ExecutionState) (c : Expr) (isInternal : Bool)
    (st : ExecutionState) (e : Expr)
    (hsp : cfg.staticPct = none) (hev : cfg.evalResult = none)
    (hse : (simplifyExpr st.constraints e).isConst = false) :
    fork cfg cur c isInternal =
      .ok ((none, none), [Event.termEarly "Query timed out (fork)."]) ∧
    toConstant st e none = .error .assertFail := by
  constructor
  · have hcc : forkConcretize cfg cur c = .ok (cur, c) := by
      unfold forkConcretize
      rw [hsp]
      split <;> rfl
    unfold fork
    rw [hcc, hev]
  · simp [toConstant, hse]

/-- Witness for C9 (amended): a concrete failing evaluate query and failing getValue. -/
theorem solver_failure_handling_witness :
    fork ⟨none, none, none, false, false, false, false, false, 0⟩
        ⟨[], [], 0, false⟩ (.sym "b" 1) false =
      .ok ((none, none), [Event.termEarly "Query timed out (fork)."]) ∧
    toConstant ⟨[], [], 0, false⟩ (.sym "z" 8) none = .error .assertFail :=
  solver_failure_handling _ _ _ _ _ _ rfl rfl rfl

/-- Expr::getMinBytesForWidth. -/
def minBytesForWidth (w : Nat) : Nat := (w + 7) / 8

/-- Context::get().getPointerWidth() of the modelled 64-bit target. -/
def ptrWidth : Nat := 64

/-- Engine configuration read by executeMemoryOperation: the native-heap range
[n_heap_l, n_heap_h] globals, SimplifySymIndices, MaxSymArraySize,
MakeConcreteSymbolic, and OnlySeed. -/
structure MemCfg where
  nHeapL : Nat
  nHeapH : Nat
  simplifySymIndices : Bool
  maxSymArraySize : Nat
  makeConcreteSymbolic : Nat
  onlySeed : Bool
deriving DecidableEq, Repr

/-- Solver-dependent outcomes of one executeMemoryOperation run: the fast resolveOne
call (timeout flag and its result), the bounds-check mustBeTrue result (none = query
timeout), the slow resolve call (incomplete flag and candidate list), the per-candidate
fork inputs, and the RNG draw of replaceReadWithSymbolic. -/
structure MemOracles where
  resolveOneTimeout : Bool
  resolveOneResult : Option (MemoryObject × ObjectState)
  boundsCheck : Option Bool
  resolveIncomplete : Bool
  resolveList : List (MemoryObject × ObjectState)
  forkCfgs : List ForkCfg
  rrwsRand : Nat
deriving Repr

/-- Modelled from the spec: AddressSpace::resolveOne on a constant address
(lib/Core/AddressSpace.cpp is not under src/) — at most one object may contain the
address; the containing object, when present, is found by base/size containment. -/
def resolveOneConst (space : List (MemoryObject × ObjectState)) (addr : Nat) :
    Option (MemoryObject × ObjectState) :=
  space.find? fun p => decide (p.1.base ≤ addr ∧ addr < p.1.base + p.1.size)

/-- MemoryObject::getOffsetExpr: address minus the object base. -/
def getOffsetExpr (mo : MemoryObject) (address : Expr) : Expr :=
  mkSub address (.const ptrWidth mo.base)

/-- Modelled from the spec: MemoryObject::getBoundsCheckOffset (lib/klee/Memory.h not
under src/) — "0 ≤ offset ∧ offset + bytes ≤ mo.size" for an unsigned offset. -/
def getBoundsCheckOffset (mo : MemoryObject) (offset : Expr) (bytes : Nat) : Expr :=
  if bytes ≤ mo.size then mkUlt offset (.const ptrWidth (mo.size - bytes + 1))
  else .const 1 0

/-- MemoryObject::getBoundsCheckPointer: bounds check of the address itself. -/
def getBoundsCheckPointer (mo : MemoryObject) (address : Expr) (bytes : Nat) : Expr :=
  getBoundsCheckOffset mo (getOffsetExpr mo address) bytes

/-- Executor::replaceReadWithSymbolic (Executor.cpp l.4450-4475): under
MakeConcreteSymbolic = n, a constant read result is replaced (with probability 1/n) by
a fresh symbolic value constrained equal to it. -/
def replaceReadWithSymbolic (cfg : MemCfg) (o : MemOracles) (freshId : Nat) (e : Expr) :
    Expr × List Event :=
  if cfg.makeConcreteSymbolic = 0 then (e, [])
  else if e.isConst = false then (e, [])
  else if cfg.makeConcreteSymbolic ≠ 1 ∧ o.rrwsRand % cfg.makeConcreteSymbolic ≠ 0 then (e, [])
  else
    let res := Expr.sym ("rrws_arr" ++ toString freshId) e.width
    (res, [Event.symConstraintEv (mkEq e res)])

/-- The per-candidate fork loop of the slow resolution path
(Executor.cpp l.4890-4922): fork the unbound state on each candidate's bounds check;
a bound branch performs the access (ReadOnly error on read-only objects), the loop
follows the unbound branch and stops when it dies. -/
def resolveLoop (isWrite : Bool) (address value : Expr) (typeW bytes : Nat) :
    List ForkCfg → List (MemoryObject × ObjectState) → ExecutionState →
    Except EngineAbort (List Event × Option ExecutionState)
  | _, [], unbound => .ok ([], some unbound)
  | fcfgs, (mo, os) :: rest, unbound =>
      match fork fcfgs.headI unbound (getBoundsCheckPointer mo address bytes) true with
      | .error a => .error a
      | .ok (pair, evs) =>
          let evsB : List Event :=
            match pair.1 with
            | none => []
            | some _ =>
                if isWrite then
                  if os.readOnly then [Event.termError .ReadOnly "memory error: object read only"]
                  else [Event.writeMemEv mo.id (getOffsetExpr mo address) value]
                else
                  [Event.readMemEv mo.id (getOffsetExpr mo address),
                   Event.bindLocalEv (.osRead mo.id (getOffsetExpr mo address) typeW)]
          match pair.2 with
          | none => .ok (evs ++ evsB, none)
          | some u =>
              match resolveLoop isWrite address value typeW bytes fcfgs.tail rest u with
              | .error a => .error a
              | .ok (evs2, ub) => .ok (evs ++ evsB ++ evs2, ub)

/-- The unbound-path tail of executeMemoryOperation (Executor.cpp l.4945-5135): report a
resolve timeout; otherwise exit seed mode if OnlySeed, terminate with Ptr only when the
constant address lies outside the native heap range (n_heap_l, n_heap_h], then drop
out-of-range writes and bind reads of the native heap to 0x88-filled constants. -/
def memOpTail (cfg : MemCfg) (isWrite : Bool) (addr : Nat) (value : Expr) (bytes : Nat)
    (incomplete : Bool) : List Event :=
  if incomplete then [Event.termEarly "Query timed out (resolve)."]
  else
    (if cfg.onlySeed then [Event.seedExitEv] else []) ++
    (if addr ≤ cfg.nHeapL ∨ cfg.nHeapH < addr then
      [Event.termError .Ptr "++++++++++++++++++memory error: out of bound pointer"]
     else []) ++
    (if isWrite ∧ value.isConst = false then []
     else if isWrite ∧ value.isConst = true then []
     else if isWrite = false then
       [Event.bindLocalEv (mkConcatN (List.replicate bytes (.const 8 0x88)))]
     else
       [Event.termError .Ptr "-----------------memory error: out of bound pointer",
        Event.termError .Ptr "memory error: out of bound pointer"])

/-- Executor::executeMemoryOperation (Executor.cpp l.4744-5136).  A non-constant
address is terminated at entry with reason Ptr ("exploit succeed").  Otherwise the fast
resolveOne path (falling back to the concrete lookup after a resolveOne timeout;
toConstant on the already-constant address is the identity and adds nothing) performs
the in-bounds access, and the slow path forks per candidate and runs the unbound tail.
The optimizer calls are identity (spec: disabled unless enabled at build). -/
def executeMemoryOperation (cfg : MemCfg) (st : ExecutionState) (isWrite : Bool)
    (address value : Expr) (targetWidth : Nat) (o : MemOracles) :
    Except EngineAbort (List Event) :=
  if address.isConst = false then
    .ok [Event.termError .Ptr "exploit succeed: memory operation with symbolic addr"]
  else
    let type := if isWrite then value.width else targetWidth
    let bytes := minBytesForWidth type
    let value := if cfg.simplifySymIndices ∧ isWrite ∧ value.isConst = false then
        simplifyExpr st.constraints value
      else value
    let fast := if o.resolveOneTimeout then resolveOneConst st.addressSpace address.constVal
      else o.resolveOneResult
    let fastResult : Option (List Event) :=
      match fast with
      | none => none
      | some (mo, os) =>
          match o.boundsCheck with
          | none => some [Event.termEarly "Query timed out (bounds check)."]
          | some true =>
              some (if isWrite then
                      if os.readOnly then
                        [Event.termError .ReadOnly "memory error: object read only"]
                      else [Event.writeMemEv mo.id (getOffsetExpr mo address) value]
                    else
                      let rr := replaceReadWithSymbolic cfg o 1
                        (.osRead mo.id (getOffsetExpr mo address) type)
                      [Event.readMemEv mo.id (getOffsetExpr mo address)] ++
                        rr.2 ++ [Event.bindLocalEv rr.1])
          | some false => none
    match fastResult with
    | some evs => .ok evs
    | none =>
        match resolveLoop isWrite address value type bytes o.forkCfgs o.resolveList st with
        | .error a => .error a
        | .ok (evs, unbound) =>
            match unbound with
            | none => .ok evs
            | some _ =>
                .ok (evs ++ memOpTail cfg isWrite address.constVal value bytes
                  o.resolveIncomplete)

def containsObjectAccess (evs : List Event) : Bool :=
  evs.any Event.isObjectAccess

/-- The value whose n bytes are all 0x88. -/
def repByte88 : Nat → Nat
  | 0 => 0
  | n + 1 => 0x88 * 2 ^ (8 * n) + repByte88 n

theorem repByte88_lt (n : Nat) : repByte88 n < 2 ^ (8 * n) := by
  induction n with
  | zero => simp [repByte88]
  | succ n ih =>
      unfold repByte88
      have hexp : 2 ^ (8 * (n + 1)) = 2 ^ 8 * 2 ^ (8 * n) := by
        rw [← pow_add]
        ring_nf
      rw [hexp]
      calc 0x88 * 2 ^ (8 * n) + repByte88 n
          < 0x88 * 2 ^ (8 * n) + 2 ^ (8 * n) := by omega
        _ = (0x88 + 1) * 2 ^ (8 * n) := by ring
        _ ≤ 2 ^ 8 * 2 ^ (8 * n) := Nat.mul_le_mul_right _ (by norm_num)

theorem mkConcatN_rep88 (n : Nat) :
    mkConcatN (List.replicate n (.const 8 0x88)) = .const (8 * n) (repByte88 n) := by
  induction n with
  | zero => simp [mkConcatN, repByte88, List.replicate]
  | succ n ih =>
      cases n with
      | zero => simp [mkConcatN, repByte88, List.replicate]
      | succ m =>
          have hstep : mkConcatN (List.replicate (m + 2) (Expr.const 8 0x88)) =
              mkConcat (.const 8 0x88) (mkConcatN (List.replicate (m + 1) (.const 8 0x88))) := by
            rw [List.replicate_succ, List.replicate_succ]
            rfl
          rw [hstep, ih]
          unfold mkConcat
          rw [if_pos ⟨rfl, rfl⟩]
          simp only [Expr.constVal, Expr.width]
          congr 1
          · omega
          · rw [Nat.mod_eq_of_lt (show (0x88 : Nat) < 2 ^ 8 by norm_num),
              Nat.mod_eq_of_lt (repByte88_lt (m + 1))]
            rfl

/-- C1: a memory operation whose address expression is not a constant terminates the
state with a Ptr error diagnostic at entry, and no read of or write to any object
state is performed. -/
theorem execMemOp_symbolic_address_terminates
    (cfg : MemCfg) (st : ExecutionState) (isWrite : Bool) (address value : Expr)
    (targetWidth : Nat) (o : MemOracles)
    (h : address.isConst = false) :
    executeMemoryOperation cfg st isWrite address value targetWidth o =
      .ok [Event.termError .Ptr "exploit succeed: memory operation with symbolic addr"] ∧
    containsObjectAccess
      [Event.termError .Ptr "exploit succeed: memory operation with symbolic addr"] = false := by
  refine ⟨?_, rfl⟩
  unfold executeMemoryOperation
  rw [h]
  rfl

/-- Witness for C1: a 1-byte store through a fresh symbolic address. -/
theorem execMemOp_symbolic_address_terminates_witness :
    executeMemoryOperation ⟨100, 200, false, 0, 0, false⟩ ⟨[], [], 0, false⟩ true
        (.sym "a" 64) (.const 8 0) 0 ⟨false, none, none, false, [], [], 0⟩ =
      .ok [Event.termError .Ptr "exploit succeed: memory operation with symbolic addr"] ∧
    containsObjectAccess
      [Event.termError .Ptr "exploit succeed: memory operation with symbolic addr"] = false :=
  execMemOp_symbolic_address_terminates _ _ _ _ _ _ _ rfl

/-- Counterexample to C2 as frozen: constant address 150 inside the native-heap range
(100, 200], no resolution, no timeout — the surviving unbound state is not terminated
with reason Ptr; the read instead binds the 0x88-filled constant. -/
theorem execMemOp_unbound_not_terminated_cex :
    executeMemoryOperation ⟨100, 200, false, 0, 0, false⟩ ⟨[], [], 0, false⟩ false
        (.const 64 150) (.const 1 0) 64 ⟨false, none, none, false, [], [], 0⟩ =
      .ok [Event.bindLocalEv (.const 64 0x8888888888888888)] ∧
    containsPtrTerm [Event.bindLocalEv (.const 64 0x8888888888888888)] = false :=
  ⟨rfl, rfl⟩

/-- C2 (amended): when the slow resolution path leaves an unbound state and the
resolution did not time out, that state is terminated with reason Ptr exactly when the
constant address lies outside the native-heap range (addr ≤ n_heap_l or addr >
n_heap_h); inside the range it survives.  (A store at a symbolic offset never reaches
this path: the symbolic address is terminated at entry, see C1.) -/
theorem execMemOp_unbound_outside_heap_ptr
    (cfg : MemCfg) (st : ExecutionState) (isWrite : Bool) (address value : Expr)
    (targetWidth : Nat) (o : MemOracles) (evs : List Event) (u : ExecutionState)
    (haddr : address.isConst = true)
    (h1 : o.resolveOneTimeout = false) (h2 : o.resolveOneResult = none)
    (hssi : cfg.simplifySymIndices = false)
    (hloop : resolveLoop isWrite address value
        (if isWrite then value.width else targetWidth)
        (minBytesForWidth (if isWrite then value.width else targetWidth))
        o.forkCfgs o.resolveList st = .ok (evs, some u))
    (h4 : o.resolveIncomplete = false)
    (hout : address.constVal ≤ cfg.nHeapL ∨ cfg.nHeapH < address.constVal) :
    executeMemoryOperation cfg st isWrite address value targetWidth o =
      .ok (evs ++ memOpTail cfg isWrite address.constVal value
        (minBytesForWidth (if isWrite then value.width else targetWidth)) false) ∧
    containsPtrTerm (evs ++ memOpTail cfg isWrite address.constVal value
        (minBytesForWidth (if isWrite then value.width else targetWidth)) false) = true := by
  constructor
  · unfold executeMemoryOperation
    rw [haddr]
    simp only [hssi, h1, h2, h4, Bool.false_eq_true, false_and, if_neg, if_false,
      reduceIte]
    rw [hloop]
    rfl
  · rw [containsPtrTerm, List.any_append]
    have htail : containsPtrTerm (memOpTail cfg isWrite address.constVal value
        (minBytesForWidth (if isWrite then value.width else targetWidth)) false) = true := by
      unfold memOpTail
      rw [if_neg (by simp), if_pos hout]
      rw [containsPtrTerm]
      simp [List.any_append]
    rw [containsPtrTerm] at htail
    rw [htail]
    simp

/-- Witness for C2 (amended): a 1-byte store to constant address 300, outside the
native-heap range (100, 200], with an empty resolution list. -/
theorem execMemOp_unbound_outside_heap_ptr_witness :
    executeMemoryOperation ⟨100, 200, false, 0, 0, false⟩ ⟨[], [], 0, false⟩ true
        (.const 64 300) (.sym "v" 8) 0 ⟨false, none, none, false, [], [], 0⟩ =
      .ok ([] ++ memOpTail ⟨100, 200, false, 0, 0, false⟩ true 300 (.sym "v" 8) 1 false) ∧
    containsPtrTerm
      ([] ++ memOpTail ⟨100, 200, false, 0, 0, false⟩ true 300 (.sym "v" 8) 1 false) = true :=
  execMemOp_unbound_outside_heap_ptr ⟨100, 200, false, 0, 0, false⟩ ⟨[], [], 0, false⟩
    true (.const 64 300) (.sym "v" 8) 0 ⟨false, none, none, false, [], [], 0⟩ []
    ⟨[], [], 0, false⟩ rfl rfl rfl rfl rfl rfl (Or.inr (by decide))

/-- C3: with a constant address strictly above n_heap_l and at most n_heap_h that
resolves to no object (no solver timeout), the state is not terminated: a read binds
the destination register to an 0x88-byte-filled constant of the access width and a
write returns without modifying any object state. -/
theorem execMemOp_native_heap_survives
    (cfg : MemCfg) (st : ExecutionState) (address value : Expr)
    (targetWidth : Nat) (o : MemOracles)
    (haddr : address.isConst = true)
    (h1 : o.resolveOneTimeout = false) (h2 : o.resolveOneResult = none)
    (h3 : o.resolveList = []) (h4 : o.resolveIncomplete = false)
    (h5 : cfg.onlySeed = false) (hssi : cfg.simplifySymIndices = false)
    (hin : cfg.nHeapL < address.constVal ∧ address.constVal ≤ cfg.nHeapH) :
    executeMemoryOperation cfg st false address value targetWidth o =
      .ok [Event.bindLocalEv (.const (8 * minBytesForWidth targetWidth)
        (repByte88 (minBytesForWidth targetWidth)))] ∧
    executeMemoryOperation cfg st true address value targetWidth o = .ok [] := by
  have hout : ¬(address.constVal ≤ cfg.nHeapL ∨ cfg.nHeapH < address.constVal) := by
    omega
  constructor
  · unfold executeMemoryOperation
    rw [haddr]
    simp only [hssi, h1, h2, h3, h4, Bool.false_eq_true, false_and, if_neg, if_false,
      reduceIte, resolveLoop]
    unfold memOpTail
    rw [if_neg (by simp), if_neg hout]
    simp [h5, mkConcatN_rep88]
  · unfold executeMemoryOperation
    rw [haddr]
    simp only [hssi, h1, h2, h3, h4, Bool.false_eq_true, false_and, if_neg, if_false,
      reduceIte, resolveLoop]
    unfold memOpTail
    rw [if_neg (by simp), if_neg hout]
    cases hvc : value.isConst <;> simp [h5, hvc]

/-- Witness for C3: a 4-byte read and a 2-byte write at constant address 150 with the
native-heap range (100, 200]. -/
theorem execMemOp_native_heap_survives_witness :
    executeMemoryOperation ⟨100, 200, false, 0, 0, false⟩ ⟨[], [], 0, false⟩ false
        (.const 64 150) (.const 1 0) 32 ⟨false, none, none, false, [], [], 0⟩ =
      .ok [Event.bindLocalEv (.const 32 0x88888888)] ∧
    executeMemoryOperation ⟨100, 200, false, 0, 0, false⟩ ⟨[], [], 0, false⟩ true
        (.const 64 150) (.sym "w" 16) 32 ⟨false, none, none, false, [], [], 0⟩ = .ok [] :=
  ⟨(execMemOp_native_heap_survives ⟨100, 200, false, 0, 0, false⟩ ⟨[], [], 0, false⟩
      (.const 64 150) (.const 1 0) 32 ⟨false, none, none, false, [], [], 0⟩
      rfl rfl rfl rfl rfl rfl rfl (by decide)).1,
   (execMemOp_native_heap_survives ⟨100, 200, false, 0, 0, false⟩ ⟨[], [], 0, false⟩
      (.const 64 150) (.sym "w" 16) 32 ⟨false, none, none, false, [], [], 0⟩
      rfl rfl rfl rfl rfl rfl rfl (by decide)).2⟩

/-- One iteration's solver inputs for the indirect-call loop: the getValue outcome
(none = the asserted solver failure) and the inputs of the internal fork on
callee = value. -/
structure CallIter where
  getValueRes : Option Nat
  forkCfg : ForkCfg
deriving Repr

instance : Inhabited CallIter := ⟨⟨none, default⟩⟩

/-- The indirect-call do-while loop of the Call case (Executor.cpp l.2295-2631), with
the Haoxin/AEG instrumentation: per iteration the callee expression v is concretized by
getValue and an internal fork on v = value is taken; on the bound branch, after the
AEG write-exploit-capability pass (wecEmpty = the WriteExploitCapability map is empty;
a non-empty map injects ELF-derived constraints, recorded as an event), a NON-constant
v terminates the state with the exec error "AEG: Find a possible exploit" and breaks
the loop; a constant v is checked against the legal-function set and either executed
or reported as an invalid function pointer (once); the loop then follows the free
branch. -/
def indirectCallLoop (legal : List Nat) (wecEmpty : Bool) (v : Expr) :
    Nat → List CallIter → ExecutionState → Bool → Except EngineAbort (List Event)
  | 0, _, _, _ => .ok []
  | fuel + 1, iters, free, hasInvalid =>
      match iters.headI.getValueRes with
      | none => .error .assertFail
      | some n =>
          match fork iters.headI.forkCfg free (mkEq v (.const v.width n)) true with
          | .error a => .error a
          | .ok (pair, fevs) =>
              match pair.1 with
              | some _ =>
                  let aegEvs : List Event := if wecEmpty then [] else [Event.aegInjectEv]
                  if v.isConst = false then
                    .ok (fevs ++ aegEvs ++
                      [Event.termError .Exec "AEG: Find a possible exploit"])
                  else
                    let addr := n % 2 ^ v.width
                    let callEvs : List Event :=
                      if addr ∈ legal then [Event.execCallEv addr]
                      else if hasInvalid = false then
                        [Event.termError .Exec "invalid function pointer"]
                      else []
                    let hasInvalid2 := if addr ∈ legal then hasInvalid else true
                    match pair.2 with
                    | none => .ok (fevs ++ aegEvs ++ callEvs)
                    | some fr =>
                        match indirectCallLoop legal wecEmpty v fuel iters.tail fr hasInvalid2 with
                        | .error a => .error a
                        | .ok evs2 => .ok (fevs ++ aegEvs ++ callEvs ++ evs2)
              | none =>
                  match pair.2 with
                  | none => .ok fevs
                  | some fr =>
                      match indirectCallLoop legal wecEmpty v fuel iters.tail fr hasInvalid with
                      | .error a => .error a
                      | .ok evs2 => .ok (fevs ++ evs2)

/-- Counterexample to C6 as frozen: a symbolic callee over a two-entry legal-function
table {1000, 2000}.  After the fork on v = 1000 the engine terminates the bound state
with the exec error "AEG: Find a possible exploit" and breaks — no callee is executed
and no second state is processed, instead of the claimed two executing states. -/
theorem indirectCall_symbolic_callee_cex :
    indirectCallLoop [1000, 2000] true (.sym "fp" 64) 3
        [⟨some 1000, ⟨none, some .unknown, none, false, false, false, false, true, 0⟩⟩,
         ⟨some 2000, ⟨none, some .unknown, none, false, false, false, false, true, 0⟩⟩,
         ⟨some 2000, ⟨none, some .unknown, none, false, false, false, false, true, 0⟩⟩]
        ⟨[], [], 0, false⟩ false =
      .ok [Event.termError .Exec "AEG: Find a possible exploit"] ∧
    containsExecCall [Event.termError .Exec "AEG: Find a possible exploit"] = false :=
  ⟨rfl, rfl⟩

/-- C6 (amended): in the indirect-call loop with an empty write-exploit-capability map,
a NON-constant callee expression is concretized via getValue and forked on equality,
and the bound branch is then terminated with the exec error "AEG: Find a possible
exploit", breaking the loop — the call is never executed; only a CONSTANT callee is
checked against the legal-function set, executing it when legal and terminating with
"invalid function pointer" otherwise. -/
theorem indirectCall_aeg_behavior
    (legal : List Nat) (v : Expr) (n fuel : Nat) (it : CallIter) (rest : List CallIter)
    (free t : ExecutionState)
    (hgv : it.getValueRes = some n) :
    (∀ f, v.isConst = false →
       fork it.forkCfg free (mkEq v (.const v.width n)) true = .ok ((some t, f), []) →
       indirectCallLoop legal true v (fuel + 1) (it :: rest) free false =
         .ok [Event.termError .Exec "AEG: Find a possible exploit"]) ∧
    (v.isConst = true →
       fork it.forkCfg free (mkEq v (.const v.width n)) true = .ok ((some t, none), []) →
       indirectCallLoop legal true v (fuel + 1) (it :: rest) free false =
         .ok (if n % 2 ^ v.width ∈ legal then [Event.execCallEv (n % 2 ^ v.width)]
              else [Event.termError .Exec "invalid function pointer"])) := by
  constructor
  · intro f hv hfork
    unfold indirectCallLoop
    simp only [List.headI, hgv, hfork, hv]
    rfl
  · intro hv hfork
    unfold indirectCallLoop
    simp only [List.headI, hgv, hfork, hv]
    by_cases haddr : n % 2 ^ v.width ∈ legal <;> simp [haddr]

/-- Witness for C6 (amended): the symbolic two-entry function-pointer table. -/
theorem indirectCall_aeg_behavior_witness :
    indirectCallLoop [1000, 2000] true (.sym "fp" 64) 1
        [⟨some 1000, ⟨none, some .unknown, none, false, false, false, false, true, 0⟩⟩]
        ⟨[], [], 0, false⟩ false =
      .ok [Event.termError .Exec "AEG: Find a possible exploit"] :=
  (indirectCall_aeg_behavior [1000, 2000] (.sym "fp" 64) 1000 0
      ⟨some 1000, ⟨none, some .unknown, none, false, false, false, false, true, 0⟩⟩ []
      ⟨[], [], 0, false⟩ ⟨[.eq (.const 64 1000) (.sym "fp" 64)], [], 1, false⟩ rfl).1
    (some ⟨[.eq (.const 1 0) (.eq (.const 64 1000) (.sym "fp" 64))], [], 1, false⟩) rfl rfl

/-- What the Ret handler reads from the call site: the caller's expected result width
(none when the caller's type is void), the SExt return attribute, and whether the call
instruction has users. -/
structure CallerInfo where
  retWidth : Option Nat
  sextAttr : Bool
  hasUsers : Bool
deriving DecidableEq, Repr

/-- A stack frame as seen by the Ret handler: its caller instruction (none on the
initial frame). -/
structure StackFrame where
  caller : Option CallerInfo
deriving DecidableEq, Repr

instance : Inhabited StackFrame := ⟨⟨none⟩⟩

/-- The Ret case of Executor::executeInstruction (Executor.cpp l.1874-1937): on the
last frame, terminate the state with an exit test case; otherwise pop the frame and,
for a non-void return into a non-void caller, extend the value on width mismatch per
the SExt return attribute and bind it to the caller's destination register; a void
return into a caller with users is an exec error.  Returns the events and the
remaining stack (head = top of stack). -/
def execRet (stack : List StackFrame) (isVoidReturn : Bool) (result : Expr) :
    List Event × List StackFrame :=
  if stack.length ≤ 1 then ([Event.termExit], stack)
  else
    let caller : CallerInfo := (stack.headI.caller).getD ⟨none, false, false⟩
    let stack2 := stack.tail
    if isVoidReturn = false then
      match caller.retWidth with
      | some tw =>
          let result2 :=
            if result.width ≠ tw then
              if caller.sextAttr then mkSExt result tw else mkZExt result tw
            else result
          ([Event.bindLocalEv result2], stack2)
      | none => ([], stack2)
    else
      if caller.hasUsers then
        ([Event.termError .Exec "return void when caller expected a result"], stack2)
      else ([], stack2)

/-- C7: the Ret handler terminates the state with an exit test case when the popped
frame was the last one; otherwise the frame is popped, and a non-void return whose
width differs from the caller's expected width is sign-extended under the SExt return
attribute and zero-extended otherwise before being bound to the caller's register. -/
theorem ret_semantics
    (stack : List StackFrame) (isVoidReturn : Bool) (result : Expr) :
    (stack.length ≤ 1 → execRet stack isVoidReturn result = ([Event.termExit], stack)) ∧
    (1 < stack.length → (execRet stack isVoidReturn result).2 = stack.tail) ∧
    (∀ ci tw, 1 < stack.length → isVoidReturn = false →
      stack.headI.caller = some ci → ci.retWidth = some tw → result.width ≠ tw →
      (execRet stack isVoidReturn result).1 =
        [Event.bindLocalEv (if ci.sextAttr then mkSExt result tw else mkZExt result tw)]) := by
  refine ⟨?_, ?_, ?_⟩
  · intro hlen
    unfold execRet
    rw [if_pos hlen]
  · intro hlen
    unfold execRet
    rw [if_neg (by omega)]
    dsimp only []
    split
    · split
      · rfl
      · rfl
    · split
      · rfl
      · rfl
  · intro ci tw hlen hvoid hcaller hwidth hne
    unfold execRet
    rw [if_neg (by omega), hvoid]
    simp [hcaller, hwidth, hne]

/-- Witness for C7: a 2-frame stack, an 8-bit return value into a 32-bit caller with
and without the SExt attribute, and the last-frame exit. -/
theorem ret_semantics_witness :
    (execRet [⟨some ⟨some 32, true, true⟩⟩, ⟨none⟩] false (.const 8 200)).1 =
      [Event.bindLocalEv (mkSExt (.const 8 200) 32)] ∧
    (execRet [⟨some ⟨some 32, false, true⟩⟩, ⟨none⟩] false (.const 8 200)).1 =
      [Event.bindLocalEv (mkZExt (.const 8 200) 32)] ∧
    execRet [⟨none⟩] false (.const 8 200) = ([Event.termExit], [⟨none⟩]) :=
  ⟨by
    have h := (ret_semantics [⟨some ⟨some 32, true, true⟩⟩, ⟨none⟩] false
      (.const 8 200)).2.2 ⟨some 32, true, true⟩ 32 (by decide) rfl rfl rfl (by decide)
    simpa using h,
   by
    have h := (ret_semantics [⟨some ⟨some 32, false, true⟩⟩, ⟨none⟩] false
      (.const 8 200)).2.2 ⟨some 32, false, true⟩ 32 (by decide) rfl rfl rfl (by decide)
    simpa using h,
   (ret_semantics [⟨none⟩] false (.const 8 200)).1 (by decide)⟩

/-- The constant-size branch of Executor::executeAlloc (Executor.cpp l.4502-4580),
after toUnique produced a constant size: a failed MemoryManager::allocate binds the
pointer-width constant 0; a successful one runs the native-heap request when isheap,
binds the object in the state, initialises its bytes, binds the base address, and
copies over a realloc source (the byte-copy loop and unbind are summarised as a write
event on the new object). -/
def executeAllocConcrete (sizeVal : Nat) (isheap : Bool)
    (allocRes : Option MemoryObject) (reallocFrom : Option Nat) : List Event :=
  match allocRes with
  | none => [Event.bindLocalEv (.const ptrWidth 0)]
  | some mo =>
      (if isheap then [Event.heapReqEv] else []) ++
      [Event.bindLocalEv (.const ptrWidth mo.base)] ++
      (match reallocFrom with
       | none => []
       | some oldId =>
           [Event.writeMemEv mo.id (.const ptrWidth 0) (.osRead oldId (.const ptrWidth 0) (8 * sizeVal))])

/-- C10: when the memory manager returns no object for a concrete-size allocation, the
destination register is bound to the pointer-width constant 0 and the state continues —
no termination event of any kind is produced. -/
theorem executeAlloc_failure_binds_null
    (sizeVal : Nat) (isheap : Bool) (allocRes : Option MemoryObject)
    (reallocFrom : Option Nat) (h : allocRes = none) :
    executeAllocConcrete sizeVal isheap allocRes reallocFrom =
      [Event.bindLocalEv (.const 64 0)] ∧
    containsTermEvent [Event.bindLocalEv (.const 64 0)] = false := by
  subst h
  exact ⟨rfl, rfl⟩

/-- Witness for C10: a failed 16-byte heap allocation with no realloc source. -/
theorem executeAlloc_failure_binds_null_witness :
    executeAllocConcrete 16 true none none = [Event.bindLocalEv (.const 64 0)] ∧
    containsTermEvent [Event.bindLocalEv (.const 64 0)] = false :=
  executeAlloc_failure_binds_null 16 true none none rfl
